import Mathlib

/-!
Verification development for the DaimiData repository.

The definitions below are a shallow embedding of the Python sources
`name_utils.py`, `fetch_data.py` and `generate_html.py`:

* strings are Lean `String` / `List Char`;
* Python dicts (which preserve key insertion order) are association lists;
* Python sets used only for membership are duplicate-free `List String`
  built with `setAdd`;
* the unbounded recursions (`dfs` in `find_supervisor_chains`, and
  `find_all_descendants`) are embedded with an explicit fuel parameter:
  running out of fuel returns `none`, so `some` results express that the
  original recursion terminates within the given depth;
* Python `sorted` (a stable sort) is embedded as a stable insertion sort
  `pySorted`; Python set iteration order is unspecified, so the seed
  loops of `find_supervisor_chains` are determinized to first-insertion
  order, which is one of the orders a run may produce.
-/

/-- A PhD record as consumed by `analyze_data`: the fields of the JSON
objects that the analysis core actually reads (`name`, `supervisors`,
`year`, `title`).  A missing `year` is `none`. -/
structure Entry where
  name : String
  supervisors : String
  year : Option Int
  title : String
deriving DecidableEq

/-- An edge payload appended to `supervision_graph[supervisor]`:
the dict `{'name': student, 'year': entry['year']}`. -/
structure Edge where
  name : String
  year : Option Int
deriving DecidableEq

/-- A chain dict `{'path': ..., 'years': ..., 'length': len(path)}`. -/
structure Chain where
  path : List String
  years : List (Option Int)
  length : Nat
deriving DecidableEq

/-- The value stored in `student_info[student]` by
`find_supervisor_chains`. -/
structure SInfo where
  year : Option Int
  title : String
  supervisors : List String
deriving DecidableEq

/-- Python whitespace for the `\s` character class (ASCII part:
space, tab, newline, carriage return, vertical tab, form feed). -/
def isPySpace (c : Char) : Bool :=
  c = ' ' || c = '\t' || c = '\n' || c = '\r' || c = Char.ofNat 11 || c = Char.ofNat 12

/-- Length of the maximal whitespace prefix of a character list
(the greedy match of a leading run against the whitespace class). -/
def wsRun : List Char → Nat
  | [] => 0
  | c :: rest => if isPySpace c then wsRun rest + 1 else 0

/-- One step of the delimiter regex of `parse_supervisors`
(pattern: a comma with optional trailing whitespace, or the words
and-slash-ampersand-slash-og surrounded by whitespace).  Returns the
length of the match starting at the head of the input, trying the four
alternatives in the order they appear in the pattern; the leading and
trailing whitespace runs are matched greedily, which coincides with the
backtracking behaviour because the literal parts start and end with
non-whitespace characters. -/
def matchAt (s : List Char) : Option Nat :=
  match s with
  | [] => none
  | c :: rest =>
    if c = ',' then some (1 + wsRun rest)
    else
      let w := wsRun s
      if w = 0 then none
      else
        let t := s.drop w
        if ['a', 'n', 'd'].isPrefixOf t then
          let w2 := wsRun (t.drop 3)
          if w2 = 0 then none else some (w + 3 + w2)
        else if ['&'].isPrefixOf t then
          let w2 := wsRun (t.drop 1)
          if w2 = 0 then none else some (w + 1 + w2)
        else if ['o', 'g'].isPrefixOf t then
          let w2 := wsRun (t.drop 2)
          if w2 = 0 then none else some (w + 2 + w2)
        else none

/-- The splitting loop of `re.split` for the delimiter pattern above:
scan left to right, cut at the leftmost match, continue after it.  The
fuel argument only serves structural recursion; `fuel = s.length`
always suffices because every match consumes at least one character. -/
def pySplitF : Nat → List Char → List (List Char)
  | _, [] => [[]]
  | 0, s => [s]
  | fuel + 1, c :: rest =>
    match matchAt (c :: rest) with
    | some k => [] :: pySplitF fuel ((c :: rest).drop k)
    | none =>
      match pySplitF fuel rest with
      | [] => [[c]]
      | p :: ps => (c :: p) :: ps

/-- Python `str.strip()`: remove leading and trailing whitespace. -/
def pyStrip (s : List Char) : List Char :=
  ((s.dropWhile isPySpace).reverse.dropWhile isPySpace).reverse

/-- Embedding of `parse_supervisors` (identical in `name_utils.py` and
`generate_html.py`): empty input gives the empty list, otherwise split
on the delimiter regex, strip every piece and drop the empty pieces. -/
def parse_supervisors (s : String) : List String :=
  if s = "" then []
  else
    ((((pySplitF s.data.length s.data).map pyStrip).filter
      (fun p => !p.isEmpty)).map (fun p => ⟨p⟩))

/-- Python `dict.get(x, d)` on a literal table embedded as an
association list (the tables here have pairwise distinct keys). -/
def pyDictGet : List (String × String) → String → String → String
  | [], _, d => d
  | (k, v) :: rest, x, d => if x = k then v else pyDictGet rest x d

/-- The alias table of `normalize_name` in `name_utils.py`
(thirteen entries, including the Ole Lehrmann one). -/
def nuMap : List (String × String) :=
  [("Ole Lehrmann", "Ole Lehrmann Madsen"),
   ("Clemens Klokmose", "Clemens Nylandsted Klokmose"),
   ("Christian N. S. Pedersen", "Christian N. Storm Pedersen"),
   ("Christian Nørgaard Storm Pedersen", "Christian N. Storm Pedersen"),
   ("Christian Storm Pedersen", "Christian N. Storm Pedersen"),
   ("Jesper Buus", "Jesper Buus Nielsen"),
   ("Ivan Damgaard", "Ivan Bjerre Damgård"),
   ("Ivan Damgård", "Ivan Bjerre Damgård"),
   ("Gerth S. Brodal", "Gerth Stølting Brodal"),
   ("Peter Mosses", "Peter D. Mosses"),
   ("Michael Schwartzbach", "Michael I. Schwartzbach"),
   ("Marianne Graves", "Marianne Graves Petersen"),
   ("Jakob Bardram", "Jakob Eyvind Bardram")]

/-- The alias table of `normalize_name` in `generate_html.py`
(twelve entries). -/
def ghMap : List (String × String) :=
  [("Clemens Klokmose", "Clemens Nylandsted Klokmose"),
   ("Christian N. S. Pedersen", "Christian N. Storm Pedersen"),
   ("Christian Nørgaard Storm Pedersen", "Christian N. Storm Pedersen"),
   ("Christian Storm Pedersen", "Christian N. Storm Pedersen"),
   ("Jesper Buus", "Jesper Buus Nielsen"),
   ("Ivan Damgaard", "Ivan Bjerre Damgård"),
   ("Ivan Damgård", "Ivan Bjerre Damgård"),
   ("Gerth S. Brodal", "Gerth Stølting Brodal"),
   ("Peter Mosses", "Peter D. Mosses"),
   ("Michael Schwartzbach", "Michael I. Schwartzbach"),
   ("Marianne Graves", "Marianne Graves Petersen"),
   ("Jakob Bardram", "Jakob Eyvind Bardram")]

/-- The alias table of `normalize_name` in `fetch_data.py`
(twelve entries, same contents as the `generate_html.py` one). -/
def fdMap : List (String × String) :=
  [("Clemens Klokmose", "Clemens Nylandsted Klokmose"),
   ("Christian N. S. Pedersen", "Christian N. Storm Pedersen"),
   ("Christian Nørgaard Storm Pedersen", "Christian N. Storm Pedersen"),
   ("Christian Storm Pedersen", "Christian N. Storm Pedersen"),
   ("Jesper Buus", "Jesper Buus Nielsen"),
   ("Ivan Damgaard", "Ivan Bjerre Damgård"),
   ("Ivan Damgård", "Ivan Bjerre Damgård"),
   ("Gerth S. Brodal", "Gerth Stølting Brodal"),
   ("Peter Mosses", "Peter D. Mosses"),
   ("Michael Schwartzbach", "Michael I. Schwartzbach"),
   ("Marianne Graves", "Marianne Graves Petersen"),
   ("Jakob Bardram", "Jakob Eyvind Bardram")]

/-- Embedding of `normalize_name` from `name_utils.py`:
`name_map.get(name, name)`. -/
def normalize_name_nu (n : String) : String := pyDictGet nuMap n n

/-- Embedding of `normalize_name` from `generate_html.py`. -/
def normalize_name_gh (n : String) : String := pyDictGet ghMap n n

/-- Embedding of `normalize_name` from `fetch_data.py`. -/
def normalize_name_fd (n : String) : String := pyDictGet fdMap n n

/-- Insertion into a Python set embedded as a duplicate-free list
(membership is all the code ever asks of these sets). -/
def setAdd (l : List String) (x : String) : List String :=
  if x ∈ l then l else l ++ [x]

/-- Union of two embedded sets, `l.update(m)` style. -/
def setUnion (l m : List String) : List String := m.foldl setAdd l

/-- A supervision graph: `defaultdict(list)` from supervisor name to the
list of student edges, in key insertion order. -/
abbrev Graph := List (String × List Edge)

/-- Adjacency lookup with the defaultdict-reading convention used by the
code: a supervisor without an entry behaves as having no students. -/
def lookupGraph : Graph → String → List Edge
  | [], _ => []
  | (k, es) :: rest, p => if k = p then es else lookupGraph rest p

/-- `supervision_graph[supervisor].append(edge)`: appends to the entry,
creating it at the end of the key order when absent. -/
def addEdge : Graph → String → Edge → Graph
  | [], s, e => [(s, [e])]
  | (k, es) :: rest, s, e =>
    if k = s then (k, es ++ [e]) :: rest else (k, es) :: addEdge rest s e

/-- `supervisor_counts[supervisor] += 1` on a `defaultdict(int)`. -/
def bumpCount : List (String × Nat) → String → List (String × Nat)
  | [], s => [(s, 1)]
  | (k, n) :: rest, s =>
    if k = s then (k, n + 1) :: rest else (k, n) :: bumpCount rest s

/-- The mutable state built by the first loop of
`find_supervisor_chains`: `supervision_graph`, `has_supervisor` and
`student_info`. -/
structure FSState where
  graph : Graph
  hasSup : List String
  info : List (String × SInfo)
deriving DecidableEq

/-- `student_info[student] = {...}`: dict assignment, replacing the
value but keeping the original key position on overwrite. -/
def infoUpdate : List (String × SInfo) → String → SInfo → List (String × SInfo)
  | [], k, v => [(k, v)]
  | (k0, v0) :: rest, k, v =>
    if k0 = k then (k0, v) :: rest else (k0, v0) :: infoUpdate rest k v

/-- Association lookup in `student_info`. -/
def lookupSI : List (String × SInfo) → String → Option SInfo
  | [], _ => none
  | (k, v) :: rest, p => if k = p then some v else lookupSI rest p

/-- The body of the first loop of `find_supervisor_chains` for one
record: store `student_info`, then append one edge per parsed and
normalized supervisor and mark the student as having a supervisor. -/
def fsStep (st : FSState) (e : Entry) : FSState :=
  let student := normalize_name_gh e.name
  let sups := (parse_supervisors e.supervisors).map normalize_name_gh
  let st1 : FSState := { st with info := infoUpdate st.info student ⟨e.year, e.title, sups⟩ }
  sups.foldl (fun st2 sup =>
    { st2 with graph := addEdge st2.graph sup ⟨student, e.year⟩,
               hasSup := setAdd st2.hasSup student }) st1

/-- The graph-building loop of `find_supervisor_chains`. -/
def buildFS (l : List Entry) : FSState := l.foldl fsStep ⟨[], [], []⟩

/-- The loop body of `dfs` over the adjacency list of the current
person, parameterized by the recursive call `rec` for the next depth:
skip students already on the path or not in `phd_students`, emit every
extension of length at least two, then recurse and move to the next
sibling (global `chains.append` order: emitted, then the chains of the
recursive call, then the remaining siblings). -/
def chainLoop (rec : String → List String → List (Option Int) → List String → Option (List Chain))
    (students : List String) (path : List String) (years : List (Option Int))
    (visited : List String) : List Edge → Option (List Chain)
  | [] => some []
  | e :: es =>
    if e.name ∈ visited ∨ e.name ∉ students then
      chainLoop rec students path years visited es
    else
      let newPath := path ++ [e.name]
      let newYears := years ++ [e.year]
      let emitted : List Chain :=
        if 2 ≤ newPath.length then [⟨newPath, newYears, newPath.length⟩] else []
      match rec e.name newPath newYears (visited ++ [e.name]) with
      | none => none
      | some deep =>
        match chainLoop rec students path years visited es with
        | none => none
        | some sibs => some (emitted ++ deep ++ sibs)

/-- The inner `dfs` of `find_supervisor_chains`, with fuel bounding the
recursion depth; `none` marks fuel exhaustion, so a `some` result means
the original unbounded recursion terminates within that depth. -/
def dfs (g : Graph) (students : List String) :
    Nat → String → List String → List (Option Int) → List String → Option (List Chain)
  | 0, _, _, _, _ => none
  | fuel + 1, person, path, years, visited =>
    chainLoop (fun p pa ys vs => dfs g students fuel p pa ys vs)
      students path years visited (lookupGraph g person)

/-- Run `dfs` from a list of seeds, each seed being a start person with
the initial year annotation of its one-element path, concatenating the
emitted chains in seed order. -/
def dfsAll (g : Graph) (students : List String) (fuel : Nat) :
    List (String × Option Int) → Option (List Chain)
  | [] => some []
  | (p, y) :: rest =>
    match dfs g students fuel p [p] [y] [p] with
    | none => none
    | some cs =>
      match dfsAll g students fuel rest with
      | none => none
      | some cs2 => some (cs ++ cs2)

/-- The seeds of the two seed loops of `find_supervisor_chains`: root
supervisors (supervisors never recorded as students) with year `None`,
then every recorded student who is also a supervisor with their own
recorded year.  Python iterates these seed sets in unspecified set
order; this embedding fixes first-insertion order. -/
def chainSeeds (l : List Entry) : List (String × Option Int) :=
  (((buildFS l).graph.map Prod.fst).filter
      (fun s => s ∉ (buildFS l).hasSup)).map (fun r => (r, none)) ++
    (((buildFS l).info.map Prod.fst).filter
      (fun s => s ∈ (buildFS l).graph.map Prod.fst)).map (fun p =>
        (p, match lookupSI (buildFS l).info p with
            | some i => i.year
            | none => none))

/-- The fuel handed to `dfs` by this embedding: one more than the
number of `student_info` keys, enough because the path-local visited
set gains one student per recursion level. -/
def fsFuel (l : List Entry) : Nat := ((buildFS l).info.map Prod.fst).length + 1

/-- All chains appended by the two seed loops, in discovery order. -/
def chainsRaw (l : List Entry) : Option (List Chain) :=
  dfsAll (buildFS l).graph ((buildFS l).info.map Prod.fst) (fsFuel l) (chainSeeds l)

/-- The deduplication loop of `find_supervisor_chains`: keep the first
occurrence of every path. -/
def dedupGo (seen : List (List String)) : List Chain → List Chain
  | [] => []
  | c :: cs =>
    if c.path ∈ seen then dedupGo seen cs
    else c :: dedupGo (seen ++ [c.path]) cs

/-- All chains after duplicate removal, still in discovery order. -/
def chainsUniq (l : List Entry) : Option (List Chain) :=
  (chainsRaw l).map (dedupGo [])

/-- Stable insertion step: `before x y` says x must come strictly
before y; on a tie the earlier-inserted element stays first, matching
the stability of Python `sorted`. -/
def pyIns (before : α → α → Bool) (x : α) : List α → List α
  | [] => [x]
  | y :: ys => if before x y then x :: y :: ys else y :: pyIns before x ys

/-- Stable sort embedding Python `sorted`: insert the elements in input
order. -/
def pySorted (before : α → α → Bool) (l : List α) : List α :=
  l.foldl (fun acc x => pyIns before x acc) []

/-- Comparison for `sorted(..., key=lambda x: x['length'], reverse=True)`. -/
def beforeLen (a b : Chain) : Bool := decide (b.length < a.length)

/-- Embedding of `find_supervisor_chains`: build the graph, run the DFS
from both seed loops, deduplicate by path, and stable-sort by
descending length. -/
def find_supervisor_chains (l : List Entry) : Option (List Chain) :=
  (chainsUniq l).map (pySorted beforeLen)

/-- The loop of `find_all_descendants` over the adjacency list of the
current person, parameterized by the recursive call: students already
in the (path-local) visited set are skipped, the rest are added to the
accumulated descendant set together with their own descendants. -/
def descLoop (rec : String → List String → Option (List String))
    (visited : List String) : List Edge → List String → Option (List String)
  | [], acc => some acc
  | e :: es, acc =>
    if e.name ∈ visited then descLoop rec visited es acc
    else
      match rec e.name visited with
      | none => none
      | some ds => descLoop rec visited es (setUnion (setAdd acc e.name) ds)

/-- The recursion of `find_all_descendants`, fueled: an already-visited
person yields the empty set, otherwise the person joins the visited set
(each recursive call receives its own copy, so visited tracking is
path-local) and the loop collects the descendants. -/
def findDesc (g : Graph) : Nat → String → List String → Option (List String)
  | 0, _, _ => none
  | fuel + 1, person, visited =>
    if person ∈ visited then some []
    else descLoop (fun p vs => findDesc g fuel p vs) (visited ++ [person])
      (lookupGraph g person) []

/-- Every name occurring in a graph: the supervisor keys followed by
all student edge targets.  Used only to size the fuel. -/
def gNames (g : Graph) : List String :=
  g.map Prod.fst ++ (g.map (fun kv => kv.2.map Edge.name)).flatten

/-- Embedding of a top-level `find_all_descendants(person, graph)` call
(default `visited=None`), with fuel one more than the number of graph
names, enough because every recursion level adds a fresh name to the
visited set. -/
def find_all_descendants (g : Graph) (person : String) : Option (List String) :=
  findDesc g ((gNames g).length + 1) person []

/-- A node of the family tree built by `build_family_tree`. -/
inductive FTree where
  | node (name : String) (year : Option Int) (children : List FTree)

/-- The children of a family-tree node. -/
def FTree.children : FTree → List FTree
  | .node _ _ c => c

/-- One entry of the `family_trees` list of the analysis result. -/
structure FamilyTree where
  root : String
  descendants : Nat
  tree : FTree

/-- The aggregate `stats` dict of the analysis result. -/
structure Stats where
  total_phds : Nat
  total_supervisors : Nat
  year_span : String

/-- The analysis result dict returned by `analyze_data`. -/
structure Analysis where
  first_phds : List Entry
  top_supervisors : List (String × Nat)
  longest_chains : List Chain
  top_descendants : List (String × Nat)
  family_trees : List FamilyTree
  stats : Stats

/-- Python truthiness of a record year (`if x['year']`): `None` and the
integer zero are falsy. -/
def yearTruthy (e : Entry) : Bool :=
  match e.year with
  | none => false
  | some y => decide (y ≠ 0)

/-- The first component of the `first_phds` sort key:
`x['year'] if x['year'] else 9999`. -/
def keyYear (e : Entry) : Int :=
  match e.year with
  | none => 9999
  | some y => if y = 0 then 9999 else y

/-- Strict comparison of the `first_phds` sort keys
`(year-or-9999, name)`, lexicographic with Python string order
(code-point lexicographic, which is what Lean string order is). -/
def beforeEntry (a b : Entry) : Bool :=
  decide (keyYear a < keyYear b) ||
    (decide (keyYear a = keyYear b) && decide (a.name < b.name))

/-- Comparison for `sorted(items, key=lambda x: x[1], reverse=True)` on
(name, count) pairs. -/
def beforeCount (a b : String × Nat) : Bool := decide (b.2 < a.2)

/-- The body of the graph-building loop of `analyze_data` for one
record: one appended edge and one counter bump per parsed and
normalized supervisor. -/
def adStep (gc : Graph × List (String × Nat)) (e : Entry) : Graph × List (String × Nat) :=
  let student := normalize_name_gh e.name
  let sups := (parse_supervisors e.supervisors).map normalize_name_gh
  sups.foldl (fun gc2 sup =>
    (addEdge gc2.1 sup ⟨student, e.year⟩, bumpCount gc2.2 sup)) gc

/-- The graph-building loop of `analyze_data`. -/
def buildAD (l : List Entry) : Graph × List (String × Nat) := l.foldl adStep ([], [])

/-- The `supervision_graph` built by `analyze_data`. -/
def adGraph (l : List Entry) : Graph := (buildAD l).1

/-- The `supervisor_counts` built by `analyze_data`. -/
def adCounts (l : List Entry) : List (String × Nat) := (buildAD l).2

/-- The truthy years of the records, in record order: the generator
`(p['year'] for p in phd_data if p['year'])`. -/
def adYears (l : List Entry) : List Int :=
  l.filterMap (fun e => if yearTruthy e then e.year else none)

/-- Total number of edges of a supervision graph. -/
def edgeCount (g : Graph) : Nat := (g.map (fun kv => kv.2.length)).sum

/-- The `supervisor_descendants` loop of `analyze_data`: for every
supervisor key of the graph, in key order, record the size of its
descendant set when that set is non-empty. -/
def supDescList (g : Graph) : Graph → Option (List (String × Nat))
  | [] => some []
  | (k, _) :: rest =>
    match find_all_descendants g k with
    | none => none
    | some ds =>
      match supDescList g rest with
      | none => none
      | some r => some (if 0 < ds.length then (k, ds.length) :: r else r)

/-- The loop of `build_tree_recursive` over the students of the current
person, parameterized by the recursive call for the next depth: a child
node keeps the raw student name and year and adopts the children of the
recursively built subtree of the normalized name, or none. -/
def treeChildren (rec : String → Option FTree) : List Edge → List FTree
  | [] => []
  | e :: es =>
    FTree.node e.name e.year
      (match rec (normalize_name_gh e.name) with
       | some t => t.children
       | none => []) :: treeChildren rec es

/-- `build_tree_recursive(person, depth)` with gas equal to
`max_depth - depth`: returns `None` at the depth limit or for a person
with no supervision entry. -/
def buildTreeRec (g : Graph) : Nat → String → Option FTree
  | 0, _ => none
  | gas + 1, person =>
    if person ∈ g.map Prod.fst then
      some (FTree.node person none
        (treeChildren (fun p => buildTreeRec g gas p) (lookupGraph g person)))
    else none

/-- The `family_trees` loop of `analyze_data`: build a depth-3 tree for
each of the given top supervisors and keep the trees that exist and
have children. -/
def buildFamilyTrees (g : Graph) : List (String × Nat) → List FamilyTree
  | [] => []
  | (s, c) :: rest =>
    match buildTreeRec g 3 s with
    | some t =>
      if t.children.isEmpty then buildFamilyTrees g rest
      else ⟨s, c, t⟩ :: buildFamilyTrees g rest
    | none => buildFamilyTrees g rest

/-- Embedding of `analyze_data`.  A `none` result marks the situations
in which the Python function does not return a value: fuel exhaustion
of the embedded recursions (which never happens, see the termination
theorems) and the `ValueError` that `min`/`max` raise inside the
`year_span` computation when no record has a truthy year. -/
def analyze_data (l : List Entry) : Option Analysis :=
  match find_supervisor_chains l with
  | none => none
  | some chains =>
    match supDescList (adGraph l) (adGraph l) with
    | none => none
    | some sd =>
      match adYears l with
      | [] => none
      | y :: ys =>
        let topDesc := (pySorted beforeCount sd).take 10
        some
          { first_phds := (pySorted beforeEntry l).take 10,
            top_supervisors := (pySorted beforeCount (adCounts l)).take 10,
            longest_chains := (pySorted beforeLen chains).take 5,
            top_descendants := topDesc,
            family_trees := buildFamilyTrees (adGraph l) (topDesc.take 5),
            stats :=
              { total_phds := l.length,
                total_supervisors := (adCounts l).length,
                year_span :=
                  toString (ys.foldl min y) ++ "-" ++ toString (ys.foldl max y) } }

theorem pyIns_perm (before : α → α → Bool) (x : α) (l : List α) :
    (pyIns before x l).Perm (x :: l) := by
  induction l with
  | nil => exact List.Perm.refl _
  | cons y ys ih =>
    simp only [pyIns]
    split
    · exact List.Perm.refl _
    · exact (ih.cons y).trans (List.Perm.swap x y ys)

theorem pySorted_perm (before : α → α → Bool) (l : List α) :
    (pySorted before l).Perm l := by
  suffices h : ∀ (l acc : List α),
      (l.foldl (fun a x => pyIns before x a) acc).Perm (acc ++ l) by
    simpa using h l []
  intro l
  induction l with
  | nil => intro acc; simp
  | cons x xs ih =>
    intro acc
    simp only [List.foldl_cons]
    refine (ih (pyIns before x acc)).trans ?_
    refine (((pyIns_perm before x acc)).append_right xs).trans ?_
    exact List.perm_middle.symm

theorem pySorted_mem (before : α → α → Bool) (l : List α) (a : α) :
    a ∈ pySorted before l ↔ a ∈ l :=
  (pySorted_perm before l).mem_iff

theorem pyIns_pairwise (before : α → α → Bool)
    (htr : ∀ a b c, before a b = true → before b c = true → before a c = true)
    (has : ∀ a b, before a b = true → before b a = false)
    (x : α) {l : List α} (hl : l.Pairwise (fun a b => before b a = false)) :
    (pyIns before x l).Pairwise (fun a b => before b a = false) := by
  induction l with
  | nil => simp [pyIns]
  | cons y ys ih =>
    rcases List.pairwise_cons.mp hl with ⟨hy, hys⟩
    simp only [pyIns]
    split
    · rename_i hby
      refine List.pairwise_cons.mpr ⟨?_, hl⟩
      intro z hz
      rcases List.mem_cons.mp hz with rfl | hz
      · exact has x z hby
      · by_contra hzx
        have hzx' : before z x = true := by
          revert hzx; cases before z x <;> simp
        have hzy : before z y = true := htr z x y hzx' hby
        rw [hy z hz] at hzy
        exact Bool.false_ne_true hzy
    · rename_i hby
      refine List.pairwise_cons.mpr ⟨?_, ih hys⟩
      intro z hz
      rcases List.mem_cons.mp ((pyIns_perm before x ys).mem_iff.mp hz) with h | h
      · subst h
        simp only [Bool.not_eq_true] at hby
        exact hby
      · exact hy z h

theorem pySorted_pairwise (before : α → α → Bool)
    (htr : ∀ a b c, before a b = true → before b c = true → before a c = true)
    (has : ∀ a b, before a b = true → before b a = false)
    (l : List α) :
    (pySorted before l).Pairwise (fun a b => before b a = false) := by
  suffices h : ∀ (l acc : List α), acc.Pairwise (fun a b => before b a = false) →
      (l.foldl (fun a x => pyIns before x a) acc).Pairwise
        (fun a b => before b a = false) by
    exact h l [] (List.Pairwise.nil)
  intro l
  induction l with
  | nil => intro acc hacc; simpa using hacc
  | cons x xs ih =>
    intro acc hacc
    simp only [List.foldl_cons]
    exact ih (pyIns before x acc) (pyIns_pairwise before htr has x hacc)

theorem pyInsDesc_filter (key : α → Nat) (k : Nat) (x : α) :
    ∀ l : List α, l.Pairwise (fun a b => key b ≤ key a) →
    (pyIns (fun a b => decide (key b < key a)) x l).filter
        (fun c => decide (key c = k)) =
      l.filter (fun c => decide (key c = k)) ++
        (if key x = k then [x] else []) := by
  intro l
  induction l with
  | nil =>
    intro _
    simp only [pyIns, List.filter, List.nil_append]
    by_cases h : key x = k <;> simp [h]
  | cons y ys ih =>
    intro hl
    rcases List.pairwise_cons.mp hl with ⟨hy, hys⟩
    simp only [pyIns]
    split
    · rename_i hxy
      have hxy' : key y < key x := of_decide_eq_true hxy
      by_cases hk : key x = k
      · have hnil : (y :: ys).filter (fun c => decide (key c = k)) = [] := by
          rw [List.filter_eq_nil_iff]
          intro z hz
          have hzy : key z ≤ key y := by
            rcases List.mem_cons.mp hz with rfl | hz2
            · exact le_refl _
            · exact hy z hz2
          simp only [decide_eq_true_eq]
          omega
        rw [List.filter_cons_of_pos (by simp [hk]), hnil]
        simp [hk]
      · rw [List.filter_cons_of_neg (by simp [hk])]
        simp [hk]
    · by_cases hyk : key y = k
      · rw [List.filter_cons_of_pos (by simp [hyk]),
          List.filter_cons_of_pos (by simp [hyk]), ih hys, List.cons_append]
      · rw [List.filter_cons_of_neg (by simp [hyk]),
          List.filter_cons_of_neg (by simp [hyk]), ih hys]

theorem pyInsDesc_pairwise (key : α → Nat) (x : α) {l : List α}
    (hl : l.Pairwise (fun a b => key b ≤ key a)) :
    (pyIns (fun a b => decide (key b < key a)) x l).Pairwise
      (fun a b => key b ≤ key a) := by
  have h := pyIns_pairwise (fun a b : α => decide (key b < key a))
    (fun a b c hab hbc => by
      simp only [decide_eq_true_eq] at hab hbc ⊢; omega)
    (fun a b hab => by
      simp only [decide_eq_true_eq] at hab; simp only [decide_eq_false_iff_not]; omega)
    x
    (hl.imp (fun {a b} hab => by
      simp only [decide_eq_false_iff_not]; omega))
  exact h.imp (fun {a b} hab => by
    simp only [decide_eq_false_iff_not] at hab; omega)

theorem pySortedDesc_filter (key : α → Nat) (k : Nat) (l : List α) :
    (pySorted (fun a b => decide (key b < key a)) l).filter
        (fun c => decide (key c = k)) =
      l.filter (fun c => decide (key c = k)) := by
  suffices h : ∀ (l acc : List α), acc.Pairwise (fun a b => key b ≤ key a) →
      (l.foldl (fun a x => pyIns (fun a b => decide (key b < key a)) x a) acc).filter
          (fun c => decide (key c = k)) =
        acc.filter (fun c => decide (key c = k)) ++
          l.filter (fun c => decide (key c = k)) by
    simpa using h l [] List.Pairwise.nil
  intro l
  induction l with
  | nil => intro acc _; simp
  | cons x xs ih =>
    intro acc hacc
    simp only [List.foldl_cons]
    rw [ih _ (pyInsDesc_pairwise key x hacc), pyInsDesc_filter key k x acc hacc]
    by_cases hk : key x = k
    · rw [List.filter_cons_of_pos (by simp [hk])]
      simp [hk]
    · rw [List.filter_cons_of_neg (by simp [hk])]
      simp [hk]

theorem pyDictGet_default_or_value (m : List (String × String)) (x d : String) :
    pyDictGet m x d = d ∨ pyDictGet m x d ∈ m.map Prod.snd := by
  induction m with
  | nil => left; rfl
  | cons p rest ih =>
    rcases p with ⟨k, v⟩
    simp only [pyDictGet]
    split
    · right; simp
    · rcases ih with h | h
      · left; exact h
      · right; simp only [List.map_cons, List.mem_cons]; right; exact h

theorem pyDictGet_idem (m : List (String × String))
    (hvals : ∀ v ∈ m.map Prod.snd, pyDictGet m v v = v) (x : String) :
    pyDictGet m (pyDictGet m x x) (pyDictGet m x x) = pyDictGet m x x := by
  rcases pyDictGet_default_or_value m x x with h | h
  · rw [h]; exact h
  · exact hvals _ h

/-- The termination measure of both fueled recursions: how many names
of a finite universe are still outside the visited set. -/
def remaining (univ visited : List String) : Nat :=
  (univ.toFinset \ visited.toFinset).card

theorem remaining_append_lt {univ visited : List String} {p : String}
    (hp : p ∈ univ) (hnp : p ∉ visited) :
    remaining univ (visited ++ [p]) < remaining univ visited := by
  apply Finset.card_lt_card
  have hsub : univ.toFinset \ (visited ++ [p]).toFinset ⊆
      univ.toFinset \ visited.toFinset := by
    apply Finset.sdiff_subset_sdiff (le_refl _)
    intro a ha
    simp only [List.toFinset_append, List.mem_toFinset] at ha ⊢
    simp [ha]
  refine (Finset.ssubset_iff_of_subset hsub).mpr ⟨p, ?_, ?_⟩
  · simp [List.mem_toFinset, hp, hnp]
  · simp

theorem remaining_le_length (univ visited : List String) :
    remaining univ visited ≤ univ.length :=
  le_trans (Finset.card_le_card (Finset.sdiff_subset)) univ.toFinset_card_le

theorem lookupGraph_ne_nil_mem {g : Graph} {p : String}
    (h : lookupGraph g p ≠ []) : p ∈ g.map Prod.fst := by
  induction g with
  | nil => simp [lookupGraph] at h
  | cons kv rest ih =>
    rcases kv with ⟨k, es⟩
    simp only [lookupGraph] at h
    by_cases hk : k = p
    · simp [hk]
    · rw [if_neg hk] at h
      simp only [List.map_cons, List.mem_cons]
      exact Or.inr (ih h)

theorem chainLoop_isSome {g : Graph} {students : List String} {fuel : Nat}
    (H : ∀ p pa ys vs, remaining students vs < fuel →
      (dfs g students fuel p pa ys vs).isSome = true)
    (visited : List String) (hvis : remaining students visited ≤ fuel) :
    ∀ (es : List Edge) (path : List String) (years : List (Option Int)),
      (chainLoop (fun p pa ys vs => dfs g students fuel p pa ys vs)
        students path years visited es).isSome = true := by
  intro es
  induction es with
  | nil => intro path years; simp [chainLoop]
  | cons e es ih =>
    intro path years
    simp only [chainLoop]
    split
    · exact ih path years
    · rename_i hcond
      push_neg at hcond
      have hlt : remaining students (visited ++ [e.name]) < fuel :=
        lt_of_lt_of_le (remaining_append_lt hcond.2 hcond.1) hvis
      have hrec := H e.name (path ++ [e.name]) (years ++ [e.year])
        (visited ++ [e.name]) hlt
      rcases Option.isSome_iff_exists.mp hrec with ⟨deep, hdeep⟩
      rw [hdeep]
      rcases Option.isSome_iff_exists.mp (ih path years) with ⟨sibs, hsibs⟩
      rw [hsibs]
      simp

theorem dfs_isSome (g : Graph) (students : List String) :
    ∀ (fuel : Nat) (visited : List String),
      remaining students visited < fuel →
      ∀ person path years,
        (dfs g students fuel person path years visited).isSome = true := by
  intro fuel
  induction fuel with
  | zero => intro visited h; omega
  | succ n ih =>
    intro visited h person path years
    simp only [dfs]
    exact chainLoop_isSome (fun p pa ys vs hv => ih vs hv p pa ys)
      visited (by omega) (lookupGraph g person) path years

theorem dfsAll_isSome (g : Graph) (students : List String) (fuel : Nat)
    (hfuel : students.length < fuel) :
    ∀ seeds, (dfsAll g students fuel seeds).isSome = true := by
  intro seeds
  induction seeds with
  | nil => simp [dfsAll]
  | cons s rest ih =>
    rcases s with ⟨p, y⟩
    simp only [dfsAll]
    have h1 : remaining students [p] < fuel :=
      lt_of_le_of_lt (remaining_le_length students [p]) hfuel
    rcases Option.isSome_iff_exists.mp
      (dfs_isSome g students fuel [p] h1 p [p] [y]) with ⟨cs, hcs⟩
    rw [hcs]
    rcases Option.isSome_iff_exists.mp ih with ⟨cs2, hcs2⟩
    rw [hcs2]
    simp

theorem chainsRaw_isSome (l : List Entry) : (chainsRaw l).isSome = true := by
  unfold chainsRaw
  exact dfsAll_isSome _ _ _ (by unfold fsFuel; omega) _

theorem find_supervisor_chains_isSome (l : List Entry) :
    (find_supervisor_chains l).isSome = true := by
  unfold find_supervisor_chains chainsUniq
  rcases Option.isSome_iff_exists.mp (chainsRaw_isSome l) with ⟨cs, hcs⟩
  rw [hcs]
  simp

theorem descLoop_isSome {g : Graph} {fuel : Nat} {visited : List String}
    (H : ∀ p, (findDesc g fuel p visited).isSome = true) :
    ∀ (es : List Edge) (acc : List String),
      (descLoop (fun p vs => findDesc g fuel p vs) visited es acc).isSome = true := by
  intro es
  induction es with
  | nil => intro acc; simp [descLoop]
  | cons e es ih =>
    intro acc
    simp only [descLoop]
    split
    · exact ih acc
    · rcases Option.isSome_iff_exists.mp (H e.name) with ⟨ds, hds⟩
      rw [hds]
      exact ih (setUnion (setAdd acc e.name) ds)

theorem findDesc_isSome (g : Graph) :
    ∀ (fuel : Nat) (visited : List String),
      remaining (gNames g) visited < fuel →
      ∀ person, (findDesc g fuel person visited).isSome = true := by
  intro fuel
  induction fuel with
  | zero => intro visited h; omega
  | succ n ih =>
    intro visited h person
    simp only [findDesc]
    split
    · simp
    · rename_i hpv
      cases hlk : lookupGraph g person with
      | nil => simp [descLoop]
      | cons e es =>
        have hkey : person ∈ gNames g := by
          unfold gNames
          exact List.mem_append_left _ (lookupGraph_ne_nil_mem (by rw [hlk]; simp))
        have hlt : remaining (gNames g) (visited ++ [person]) < n := by
          have := remaining_append_lt hkey hpv
          omega
        exact descLoop_isSome (fun p => ih (visited ++ [person]) hlt p) (e :: es) []

theorem find_all_descendants_isSome (g : Graph) (person : String) :
    (find_all_descendants g person).isSome = true := by
  unfold find_all_descendants
  exact findDesc_isSome g _ []
    (lt_of_le_of_lt (remaining_le_length _ _) (by omega)) person

theorem supDescList_isSome (g : Graph) :
    ∀ rest : Graph, (supDescList g rest).isSome = true := by
  intro rest
  induction rest with
  | nil => simp [supDescList]
  | cons kv rest ih =>
    rcases kv with ⟨k, es⟩
    simp only [supDescList]
    rcases Option.isSome_iff_exists.mp (find_all_descendants_isSome g k) with ⟨ds, hds⟩
    rw [hds]
    rcases Option.isSome_iff_exists.mp ih with ⟨r, hr⟩
    rw [hr]
    simp

theorem adYears_ne_nil {l : List Entry} (h : ∃ e ∈ l, yearTruthy e = true) :
    adYears l ≠ [] := by
  rcases h with ⟨e, hel, hy⟩
  unfold adYears
  intro hnil
  have : ∀ x ∈ l, (if yearTruthy x then x.year else none) = none := by
    rw [← List.filterMap_eq_nil_iff]
    exact hnil
  have he := this e hel
  rw [if_pos hy] at he
  unfold yearTruthy at hy
  cases hye : e.year with
  | none => rw [hye] at hy; simp at hy
  | some y => rw [hye] at he; simp at he

theorem analyze_data_isSome {l : List Entry} (h : ∃ e ∈ l, yearTruthy e = true) :
    (analyze_data l).isSome = true := by
  unfold analyze_data
  rcases Option.isSome_iff_exists.mp (find_supervisor_chains_isSome l) with ⟨cs, hcs⟩
  rw [hcs]
  rcases Option.isSome_iff_exists.mp (supDescList_isSome (adGraph l) (adGraph l)) with ⟨sd, hsd⟩
  rw [hsd]
  cases hys : adYears l with
  | nil => exact absurd hys (adYears_ne_nil h)
  | cons y ys => simp

theorem edgeCount_addEdge (g : Graph) (s : String) (e : Edge) :
    edgeCount (addEdge g s e) = edgeCount g + 1 := by
  induction g with
  | nil => simp [addEdge, edgeCount]
  | cons kv rest ih =>
    rcases kv with ⟨k, es⟩
    simp only [addEdge]
    split
    · simp [edgeCount]; omega
    · simp only [edgeCount, List.map_cons, List.sum_cons] at ih ⊢
      omega

theorem edgeCount_adStep (e : Entry) (gc : Graph × List (String × Nat)) :
    edgeCount (adStep gc e).1 =
      edgeCount gc.1 + ((parse_supervisors e.supervisors).map normalize_name_gh).length := by
  unfold adStep
  generalize (parse_supervisors e.supervisors).map normalize_name_gh = sups
  induction sups generalizing gc with
  | nil => simp
  | cons s rest ih =>
    simp only [List.foldl_cons, List.length_cons]
    rw [ih]
    simp only [edgeCount_addEdge]
    omega

theorem edgeCount_buildAD (l : List Entry) :
    ∀ gc : Graph × List (String × Nat),
      edgeCount ((l.foldl adStep gc).1) =
        edgeCount gc.1 +
          (l.map (fun e =>
            ((parse_supervisors e.supervisors).map normalize_name_gh).length)).sum := by
  induction l with
  | nil => intro gc; simp
  | cons e rest ih =>
    intro gc
    simp only [List.foldl_cons, List.map_cons, List.sum_cons]
    rw [ih, edgeCount_adStep]
    omega

theorem dedupGo_subset {c : Chain} :
    ∀ {seen : List (List String)} {cs : List Chain},
      c ∈ dedupGo seen cs → c ∈ cs := by
  intro seen cs
  induction cs generalizing seen with
  | nil => intro h; simp [dedupGo] at h
  | cons c0 cs ih =>
    intro h
    simp only [dedupGo] at h
    split at h
    · exact List.mem_cons_of_mem c0 (ih h)
    · rcases List.mem_cons.mp h with rfl | h2
      · exact List.mem_cons_self c cs
      · exact List.mem_cons_of_mem c0 (ih h2)

theorem dedupGo_not_seen {c : Chain} :
    ∀ {seen : List (List String)} {cs : List Chain},
      c ∈ dedupGo seen cs → c.path ∉ seen := by
  intro seen cs
  induction cs generalizing seen with
  | nil => intro h; simp [dedupGo] at h
  | cons c0 cs ih =>
    intro h
    simp only [dedupGo] at h
    split at h
    · exact ih h
    · rename_i hns
      rcases List.mem_cons.mp h with rfl | h2
      · exact hns
      · intro hmem
        exact ih h2 (List.mem_append_left _ hmem)

theorem dedupGo_pairwise :
    ∀ (seen : List (List String)) (cs : List Chain),
      (dedupGo seen cs).Pairwise (fun a b => a.path ≠ b.path) := by
  intro seen cs
  induction cs generalizing seen with
  | nil => simp [dedupGo]
  | cons c0 cs ih =>
    simp only [dedupGo]
    split
    · exact ih seen
    · refine List.pairwise_cons.mpr ⟨?_, ih (seen ++ [c0.path])⟩
      intro c hc heq
      have := dedupGo_not_seen hc
      exact this (by rw [← heq]; exact List.mem_append_right _ (List.mem_singleton.mpr rfl))

theorem chainLoop_extends {g : Graph} {students : List String} {fuel : Nat}
    (H : ∀ p pa ys vs r, dfs g students fuel p pa ys vs = some r →
      ∀ c ∈ r, (∃ t, c.path = pa ++ t) ∧ ∃ t, c.years = ys ++ t) :
    ∀ (es : List Edge) (path : List String) (years : List (Option Int))
      (visited : List String) (r : List Chain),
      chainLoop (fun p pa ys vs => dfs g students fuel p pa ys vs)
        students path years visited es = some r →
      ∀ c ∈ r, (∃ t, c.path = path ++ t) ∧ ∃ t, c.years = years ++ t := by
  intro es
  induction es with
  | nil =>
    intro path years visited r h c hc
    simp only [chainLoop] at h
    simp only [Option.some.injEq] at h
    subst h
    simp at hc
  | cons e es ih =>
    intro path years visited r h c hc
    simp only [chainLoop] at h
    split at h
    · exact ih path years visited r h c hc
    · cases hdfs : dfs g students fuel e.name (path ++ [e.name]) (years ++ [e.year])
          (visited ++ [e.name]) with
      | none => rw [hdfs] at h; exact absurd h (by simp)
      | some deep =>
        rw [hdfs] at h
        cases hsib : chainLoop (fun p pa ys vs => dfs g students fuel p pa ys vs)
            students path years visited es with
        | none => rw [hsib] at h; exact absurd h (by simp)
        | some sibs =>
          rw [hsib] at h
          simp only [Option.some.injEq] at h
          subst h
          rcases List.mem_append.mp hc with hc1 | hc2
          · rcases List.mem_append.mp hc1 with hce | hcd
            · have hc0 : c = ⟨path ++ [e.name], years ++ [e.year], (path ++ [e.name]).length⟩ := by
                by_cases h2 : 2 ≤ (path ++ [e.name]).length
                · rw [if_pos h2] at hce; simpa using hce
                · rw [if_neg h2] at hce; simp at hce
              rw [hc0]
              exact ⟨⟨[e.name], rfl⟩, ⟨[e.year], rfl⟩⟩
            · rcases H e.name (path ++ [e.name]) (years ++ [e.year]) (visited ++ [e.name])
                deep hdfs c hcd with ⟨⟨t1, ht1⟩, ⟨t2, ht2⟩⟩
              exact ⟨⟨[e.name] ++ t1, by rw [ht1]; simp⟩,
                ⟨[e.year] ++ t2, by rw [ht2]; simp⟩⟩
          · exact ih path years visited sibs hsib c hc2

theorem dfs_extends (g : Graph) (students : List String) :
    ∀ (fuel : Nat) (p : String) (pa : List String) (ys : List (Option Int))
      (vs : List String) (r : List Chain),
      dfs g students fuel p pa ys vs = some r →
      ∀ c ∈ r, (∃ t, c.path = pa ++ t) ∧ ∃ t, c.years = ys ++ t := by
  intro fuel
  induction fuel with
  | zero => intro p pa ys vs r h; exact absurd h (by simp [dfs])
  | succ n ih =>
    intro p pa ys vs r h
    simp only [dfs] at h
    exact chainLoop_extends ih (lookupGraph g p) pa ys vs r h

theorem dfsAll_head (g : Graph) (students : List String) (fuel : Nat) :
    ∀ (seeds : List (String × Option Int)) (r : List Chain),
      dfsAll g students fuel seeds = some r →
      ∀ c ∈ r, ∃ py ∈ seeds, c.path.head? = some py.1 ∧ c.years.head? = some py.2 := by
  intro seeds
  induction seeds with
  | nil =>
    intro r h c hc
    simp only [dfsAll] at h
    simp only [Option.some.injEq] at h
    subst h
    simp at hc
  | cons s rest ih =>
    rcases s with ⟨p, y⟩
    intro r h c hc
    simp only [dfsAll] at h
    cases hdfs : dfs g students fuel p [p] [y] [p] with
    | none => rw [hdfs] at h; exact absurd h (by simp)
    | some cs =>
      rw [hdfs] at h
      cases hrest : dfsAll g students fuel rest with
      | none => rw [hrest] at h; exact absurd h (by simp)
      | some cs2 =>
        rw [hrest] at h
        simp only [Option.some.injEq] at h
        subst h
        rcases List.mem_append.mp hc with hc1 | hc2
        · rcases dfs_extends g students fuel p [p] [y] [p] cs hdfs c hc1 with
            ⟨⟨t1, ht1⟩, ⟨t2, ht2⟩⟩
          refine ⟨(p, y), List.mem_cons_self _ _, ?_, ?_⟩
          · rw [ht1]; rfl
          · rw [ht2]; rfl
        · rcases ih cs2 hrest c hc2 with ⟨py, hpy, h1, h2⟩
          exact ⟨py, List.mem_cons_of_mem _ hpy, h1, h2⟩

theorem supDescList_mem {g : Graph} :
    ∀ {rest : Graph} {sd : List (String × Nat)},
      supDescList g rest = some sd →
      ∀ {nm : String} {c : Nat}, (nm, c) ∈ sd →
        ∃ ds, find_all_descendants g nm = some ds ∧ c = ds.length ∧ 0 < ds.length := by
  intro rest
  induction rest with
  | nil =>
    intro sd h nm c hmem
    simp only [supDescList] at h
    simp only [Option.some.injEq] at h
    subst h
    simp at hmem
  | cons kv rest ih =>
    rcases kv with ⟨k, es⟩
    intro sd h nm c hmem
    simp only [supDescList] at h
    cases hfd : find_all_descendants g k with
    | none => rw [hfd] at h; exact absurd h (by simp)
    | some ds =>
      rw [hfd] at h
      cases hrest : supDescList g rest with
      | none => rw [hrest] at h; exact absurd h (by simp)
      | some r =>
        rw [hrest] at h
        simp only [Option.some.injEq] at h
        subst h
        by_cases hpos : 0 < ds.length
        · rw [if_pos hpos] at hmem
          rcases List.mem_cons.mp hmem with heq | h2
          · rcases Prod.mk.injEq .. ▸ heq with ⟨h1, h2⟩
            exact ⟨ds, by rw [← h1] at hfd; exact hfd, by omega, hpos⟩
          · exact ih hrest h2
        · rw [if_neg hpos] at hmem
          exact ih hrest hmem

/-- The effect on the key order of appending under a key: the key moves
to the end of the order exactly when it is new. -/
def keysIns (ks : List String) (s : String) : List String :=
  if s ∈ ks then ks else ks ++ [s]

theorem addEdge_keys (g : Graph) (s : String) (e : Edge) :
    (addEdge g s e).map Prod.fst = keysIns (g.map Prod.fst) s := by
  induction g with
  | nil => simp [addEdge, keysIns]
  | cons kv rest ih =>
    rcases kv with ⟨k, es⟩
    simp only [addEdge]
    split
    · rename_i hk
      subst hk
      simp [keysIns]
    · rename_i hk
      simp only [List.map_cons, ih, keysIns]
      by_cases hmem : s ∈ rest.map Prod.fst
      · rw [if_pos hmem, if_pos (by simp [hmem])]
      · rw [if_neg hmem, if_neg (by
          simp only [List.mem_cons]
          push_neg
          exact ⟨fun hsk => hk hsk.symm, hmem⟩)]
        simp

theorem bumpCount_keys (c : List (String × Nat)) (s : String) :
    (bumpCount c s).map Prod.fst = keysIns (c.map Prod.fst) s := by
  induction c with
  | nil => simp [bumpCount, keysIns]
  | cons kv rest ih =>
    rcases kv with ⟨k, n⟩
    simp only [bumpCount]
    split
    · rename_i hk
      subst hk
      simp [keysIns]
    · rename_i hk
      simp only [List.map_cons, ih, keysIns]
      by_cases hmem : s ∈ rest.map Prod.fst
      · rw [if_pos hmem, if_pos (by simp [hmem])]
      · rw [if_neg hmem, if_neg (by
          simp only [List.mem_cons]
          push_neg
          exact ⟨fun hsk => hk hsk.symm, hmem⟩)]
        simp

theorem adStep_keys (e : Entry) :
    ∀ gc : Graph × List (String × Nat),
      gc.1.map Prod.fst = gc.2.map Prod.fst →
      (adStep gc e).1.map Prod.fst = (adStep gc e).2.map Prod.fst := by
  unfold adStep
  generalize (parse_supervisors e.supervisors).map normalize_name_gh = sups
  induction sups with
  | nil => intro gc h; simpa using h
  | cons s rest ih =>
    intro gc h
    simp only [List.foldl_cons]
    exact ih _ (by simp only [addEdge_keys, bumpCount_keys, h])

theorem adKeys_eq (l : List Entry) :
    (adGraph l).map Prod.fst = (adCounts l).map Prod.fst := by
  unfold adGraph adCounts buildAD
  suffices h : ∀ gc : Graph × List (String × Nat),
      gc.1.map Prod.fst = gc.2.map Prod.fst →
      (l.foldl adStep gc).1.map Prod.fst = (l.foldl adStep gc).2.map Prod.fst by
    exact h ([], []) rfl
  induction l with
  | nil => intro gc h; exact h
  | cons e rest ih =>
    intro gc h
    simp only [List.foldl_cons]
    exact ih _ (adStep_keys e gc h)

theorem pyDictGet_not_mem {m : List (String × String)} {x d : String}
    (h : x ∉ m.map Prod.fst) : pyDictGet m x d = d := by
  induction m with
  | nil => rfl
  | cons kv rest ih =>
    rcases kv with ⟨k, v⟩
    simp only [List.map_cons, List.mem_cons] at h
    push_neg at h
    simp only [pyDictGet]
    rw [if_neg h.1]
    exact ih h.2

theorem beforeEntry_trans (a b c : Entry)
    (hab : beforeEntry a b = true) (hbc : beforeEntry b c = true) :
    beforeEntry a c = true := by
  simp only [beforeEntry, Bool.or_eq_true, Bool.and_eq_true, decide_eq_true_eq] at *
  rcases hab with h1 | ⟨h1, h2⟩ <;> rcases hbc with h3 | ⟨h3, h4⟩
  · left; omega
  · left; omega
  · left; omega
  · right; exact ⟨by omega, lt_trans h2 h4⟩

theorem beforeEntry_asymm (a b : Entry) (hab : beforeEntry a b = true) :
    beforeEntry b a = false := by
  rw [Bool.eq_false_iff]
  intro hba
  simp only [beforeEntry, Bool.or_eq_true, Bool.and_eq_true, decide_eq_true_eq] at hab hba
  rcases hab with h1 | ⟨h1, h2⟩ <;> rcases hba with h3 | ⟨h3, h4⟩
  · omega
  · omega
  · omega
  · exact lt_asymm h2 h4

theorem keyYear_untruthy {e : Entry} (h : yearTruthy e = false) :
    keyYear e = 9999 := by
  unfold yearTruthy at h
  unfold keyYear
  cases he : e.year with
  | none => rfl
  | some y =>
    rw [he] at h
    simp only [decide_eq_false_iff_not, not_not] at h
    simp [h]

/-- The graph of the C2 scenario: exactly the supervision edges
A to B, B to C and C to A. -/
def cycleGraph : Graph :=
  [("A", [⟨"B", none⟩]), ("B", [⟨"C", none⟩]), ("C", [⟨"A", none⟩])]

/-- C1: chain finding and descendant counting terminate on every finite
supervision graph, cycles and self-loops included: for every record
list the fueled embedding of `find_supervisor_chains` returns a result
(never exhausts its fuel), and so does `find_all_descendants` on every
graph and start person. -/
theorem chains_and_descendants_terminate :
    (∀ l : List Entry, (find_supervisor_chains l).isSome = true) ∧
    ∀ (g : Graph) (p : String), (find_all_descendants g p).isSome = true :=
  ⟨find_supervisor_chains_isSome, find_all_descendants_isSome⟩

/-- C2: on the three-cycle graph A to B to C to A, `find_all_descendants`
applied to A terminates and returns exactly the set containing B and C;
A itself is excluded because the path-local visited set blocks
re-reaching A. -/
theorem cycle_descendants_exact :
    find_all_descendants cycleGraph "A" = some ["B", "C"] ∧
    (∀ x, x ∈ (find_all_descendants cycleGraph "A").getD [] ↔ (x = "B" ∨ x = "C")) ∧
    "A" ∉ (find_all_descendants cycleGraph "A").getD [] := by
  have h : find_all_descendants cycleGraph "A" = some ["B", "C"] := by decide
  refine ⟨h, ?_, ?_⟩
  · intro x
    rw [h]
    simp
  · rw [h]
    decide

/-- C4: for every input record list, the total number of edges of the
supervision graph built by `analyze_data` equals the sum over the
records of the number of parsed-and-normalized supervisor names. -/
theorem graph_edge_count_eq_sum (l : List Entry) :
    edgeCount (adGraph l) =
      (l.map (fun e =>
        ((parse_supervisors e.supervisors).map normalize_name_gh).length)).sum := by
  have h := edgeCount_buildAD l ([], [])
  unfold adGraph buildAD
  rw [h]
  simp [edgeCount]

/-- Helper for the self-loop claim: the recursion of
`find_all_descendants` on the one-edge graph with a self-loop returns
the empty set at any positive fuel, since the self-loop target is
already in the visited set. -/
theorem findDesc_selfloop (n : String) (y : Option Int) (fuel : Nat) :
    findDesc [(n, [⟨n, y⟩])] (fuel + 1) n [] = some [] := by
  simp [findDesc, descLoop, lookupGraph]

/-- C7: for a record whose parsed-and-normalized supervisor list is
exactly the record holder, the built graph is a pure self-loop, and
`find_all_descendants` on that person terminates with a descendant set
that does not contain the person. -/
theorem self_loop_descendants_empty (e : Entry)
    (h : (parse_supervisors e.supervisors).map normalize_name_gh =
      [normalize_name_gh e.name]) :
    find_all_descendants (adGraph [e]) (normalize_name_gh e.name) = some [] ∧
    ∀ ds, find_all_descendants (adGraph [e]) (normalize_name_gh e.name) = some ds →
      normalize_name_gh e.name ∉ ds := by
  have hg : adGraph [e] = [(normalize_name_gh e.name,
      [⟨normalize_name_gh e.name, e.year⟩])] := by
    unfold adGraph buildAD
    simp [adStep, h, addEdge]
  rw [hg]
  refine ⟨findDesc_selfloop _ _ _, ?_⟩
  intro ds hds
  unfold find_all_descendants at hds
  rw [findDesc_selfloop _ _ _] at hds
  simp only [Option.some.injEq] at hds
  subst hds
  simp

/-- Witness for C7 at the concrete record where A supervises A. -/
theorem self_loop_descendants_empty_witness :
    (parse_supervisors (Entry.mk "A" "A" none "").supervisors).map normalize_name_gh =
      [normalize_name_gh (Entry.mk "A" "A" none "").name] ∧
    find_all_descendants (adGraph [Entry.mk "A" "A" none ""])
      (normalize_name_gh (Entry.mk "A" "A" none "").name) = some [] :=
  ⟨by decide, (self_loop_descendants_empty (Entry.mk "A" "A" none "") (by decide)).1⟩

/-- C8: `parse_supervisors` splits on commas and on the whitespace
delimited words and, og and the ampersand, trims the pieces, drops the
empty pieces, keeps left-to-right order, and maps empty input to the
empty list. -/
theorem parse_supervisors_examples :
    parse_supervisors "A, B and C" = ["A", "B", "C"] ∧
    parse_supervisors "A & B" = ["A", "B"] ∧
    parse_supervisors "A og B" = ["A", "B"] ∧
    parse_supervisors "" = [] ∧
    parse_supervisors "  Alice Smith ,  Bob Jones  " = ["Alice Smith", "Bob Jones"] ∧
    parse_supervisors "A, , B" = ["A", "B"] := by
  decide

/-- C9: each of the three `normalize_name` alias tables in the source
is idempotent: applying normalization twice equals applying it once,
because no canonical form is itself an alias key. -/
theorem normalize_idempotent (x : String) :
    normalize_name_nu (normalize_name_nu x) = normalize_name_nu x ∧
    normalize_name_gh (normalize_name_gh x) = normalize_name_gh x ∧
    normalize_name_fd (normalize_name_fd x) = normalize_name_fd x :=
  ⟨pyDictGet_idem nuMap (by decide) x,
   pyDictGet_idem ghMap (by decide) x,
   pyDictGet_idem fdMap (by decide) x⟩

theorem beforeLen_trans (a b c : Chain)
    (hab : beforeLen a b = true) (hbc : beforeLen b c = true) :
    beforeLen a c = true := by
  simp only [beforeLen, decide_eq_true_eq] at *
  omega

theorem beforeLen_asymm (a b : Chain) (hab : beforeLen a b = true) :
    beforeLen b a = false := by
  simp only [beforeLen, decide_eq_true_eq, decide_eq_false_iff_not] at *
  omega

/-- C3: the chain list returned by `find_supervisor_chains` contains no
two entries with the same path, is sorted by descending length, and
leaves chains of equal length in the discovery order of the
deduplicated list (stability of the final sort). -/
theorem chains_dedup_sorted_stable (l : List Entry) (cs u : List Chain)
    (h : find_supervisor_chains l = some cs) (hu : chainsUniq l = some u) :
    cs.Pairwise (fun a b => a.path ≠ b.path) ∧
    cs.Pairwise (fun a b => b.length ≤ a.length) ∧
    ∀ k, cs.filter (fun c => decide (c.length = k)) =
      u.filter (fun c => decide (c.length = k)) := by
  unfold find_supervisor_chains at h
  rw [hu] at h
  simp only [Option.map_some', Option.some.injEq] at h
  subst h
  obtain ⟨raw, hraw, hu2⟩ : ∃ raw, chainsRaw l = some raw ∧ u = dedupGo [] raw := by
    unfold chainsUniq at hu
    cases hr : chainsRaw l with
    | none => rw [hr] at hu; exact absurd hu (by simp)
    | some raw =>
      rw [hr] at hu
      simp only [Option.map_some', Option.some.injEq] at hu
      exact ⟨raw, rfl, hu.symm⟩
  refine ⟨?_, ?_, ?_⟩
  · refine ((pySorted_perm beforeLen u).pairwise_iff ?_).mpr ?_
    · intro a b hab heq
      exact hab heq.symm
    · rw [hu2]
      exact dedupGo_pairwise [] raw
  · have hp := pySorted_pairwise beforeLen beforeLen_trans beforeLen_asymm u
    refine hp.imp ?_
    intro a b hab
    simp only [beforeLen, decide_eq_false_iff_not] at hab
    omega
  · intro k
    exact pySortedDesc_filter Chain.length k u

/-- The two-record input used to exercise the chain finder: S
supervises X (year 2000) and X supervises Y (year 2005). -/
def chainEx : List Entry :=
  [⟨"X", "S", some 2000, "tx"⟩, ⟨"Y", "X", some 2005, "ty"⟩]

/-- Witness for C3 at the concrete two-record input. -/
theorem chains_dedup_sorted_stable_witness :
    find_supervisor_chains chainEx = some ((find_supervisor_chains chainEx).getD []) ∧
    chainsUniq chainEx = some ((chainsUniq chainEx).getD []) ∧
    ((find_supervisor_chains chainEx).getD []).Pairwise (fun a b => a.path ≠ b.path) ∧
    ((find_supervisor_chains chainEx).getD []).Pairwise (fun a b => b.length ≤ a.length) ∧
    ((find_supervisor_chains chainEx).getD []).filter (fun c => decide (c.length = 2)) =
      ((chainsUniq chainEx).getD []).filter (fun c => decide (c.length = 2)) := by
  have h1 : find_supervisor_chains chainEx =
      some ((find_supervisor_chains chainEx).getD []) := by rfl
  have h2 : chainsUniq chainEx = some ((chainsUniq chainEx).getD []) := by rfl
  have h := chains_dedup_sorted_stable chainEx _ _ h1 h2
  exact ⟨h1, h2, h.1, h.2.1, h.2.2 2⟩

/-- Counterexample for C6: on the two-record input, the chain starting
at X (a student who became a supervisor) carries the year 2000 as its
first years entry, not null. -/
theorem chain_root_year_counterexample :
    (find_supervisor_chains chainEx).isSome = true ∧
    ¬ (∀ c ∈ (find_supervisor_chains chainEx).getD [], c.years.head? = some none) := by
  decide

/-- C6 amended: every chain produced by `find_supervisor_chains` has as
its first years entry either null (chains seeded at root supervisors)
or the recorded year of its first person (chains seeded at a student
who is also a supervisor). -/
theorem chain_root_year_amended (l : List Entry) (cs : List Chain)
    (h : find_supervisor_chains l = some cs) :
    ∀ c ∈ cs, c.years.head? = some none ∨
      ∃ p i, c.path.head? = some p ∧ lookupSI (buildFS l).info p = some i ∧
        c.years.head? = some i.year := by
  intro c hc
  unfold find_supervisor_chains at h
  cases hu : chainsUniq l with
  | none => rw [hu] at h; exact absurd h (by simp)
  | some u =>
    rw [hu] at h
    simp only [Option.map_some', Option.some.injEq] at h
    subst h
    have hcu : c ∈ u := (pySorted_mem beforeLen u c).mp hc
    obtain ⟨raw, hraw, hu2⟩ : ∃ raw, chainsRaw l = some raw ∧ u = dedupGo [] raw := by
      unfold chainsUniq at hu
      cases hr : chainsRaw l with
      | none => rw [hr] at hu; exact absurd hu (by simp)
      | some raw =>
        rw [hr] at hu
        simp only [Option.map_some', Option.some.injEq] at hu
        exact ⟨raw, rfl, hu.symm⟩
    have hcr : c ∈ raw := dedupGo_subset (hu2 ▸ hcu)
    unfold chainsRaw at hraw
    rcases dfsAll_head _ _ _ (chainSeeds l) raw hraw c hcr with ⟨⟨p, y⟩, hseed, hhead, hyear⟩
    unfold chainSeeds at hseed
    rcases List.mem_append.mp hseed with h1 | h2
    · rcases List.mem_map.mp h1 with ⟨rt, _, heq⟩
      left
      rw [hyear]
      rw [show y = none from (Prod.mk.injEq .. ▸ heq).2.symm]
    · rcases List.mem_map.mp h2 with ⟨p0, hp0, heq⟩
      have hp_eq : p0 = p := (Prod.mk.injEq .. ▸ heq).1
      have hy_eq : (match lookupSI (buildFS l).info p0 with
          | some i => i.year
          | none => none) = y := (Prod.mk.injEq .. ▸ heq).2
      cases hsi : lookupSI (buildFS l).info p0 with
      | none =>
        left
        rw [hsi] at hy_eq
        rw [hyear, ← hy_eq]
      | some i =>
        right
        refine ⟨p0, i, by rw [hp_eq]; exact hhead, hsi, ?_⟩
        rw [hsi] at hy_eq
        rw [hyear, ← hy_eq]

/-- Witness for C6 amended: the chain from X to Y on the two-record
input starts at the student-supervisor X, so its first years entry is
the recorded year of X. -/
theorem chain_root_year_amended_witness :
    find_supervisor_chains chainEx = some ((find_supervisor_chains chainEx).getD []) ∧
    (Chain.mk ["X", "Y"] [some 2000, some 2005] 2 ∈
      (find_supervisor_chains chainEx).getD []) ∧
    ((Chain.mk ["X", "Y"] [some 2000, some 2005] 2).years.head? = some none ∨
      ∃ p i, (Chain.mk ["X", "Y"] [some 2000, some 2005] 2).path.head? = some p ∧
        lookupSI (buildFS chainEx).info p = some i ∧
        (Chain.mk ["X", "Y"] [some 2000, some 2005] 2).years.head? = some i.year) := by
  have h1 : find_supervisor_chains chainEx =
      some ((find_supervisor_chains chainEx).getD []) := by rfl
  have h2 : Chain.mk ["X", "Y"] [some 2000, some 2005] 2 ∈
      (find_supervisor_chains chainEx).getD [] := by decide
  exact ⟨h1, h2, chain_root_year_amended chainEx _ h1 _ h2⟩

/-- The two-record input showing that a missing year does not always
sort last: a record with year 10000 and a record with no year. -/
def yearTenKEx : List Entry := [⟨"A", "", some 10000, ""⟩, ⟨"B", "", none, ""⟩]

/-- The analysis result on that input. -/
def yearTenKAnalysis : Analysis :=
  (analyze_data yearTenKEx).getD ⟨[], [], [], [], [], ⟨0, 0, ""⟩⟩

/-- Counterexample for C5, refuting two parts of the claim at concrete
inputs.  First, on an input whose only record has no year,
`analyze_data` does not return a result (the `year_span` computation
applies `min` and `max` to an empty sequence, which raises in the
original), so not every malformed input degrades gracefully.  Second, a
record with a missing year does not always sort last in the
chronological panel: missing years are ordered with the sentinel key
9999, so next to a record with year 10000 the missing-year record comes
first in `first_phds`, not last. -/
theorem analyze_graceful_counterexample :
    analyze_data [⟨"X", "", none, "t"⟩] = none ∧
    analyze_data yearTenKEx = some yearTenKAnalysis ∧
    yearTenKAnalysis.first_phds =
      [⟨"B", "", none, ""⟩, ⟨"A", "", some 10000, ""⟩] ∧
    yearTruthy ⟨"B", "", none, ""⟩ = false ∧
    yearTruthy ⟨"A", "", some 10000, ""⟩ = true :=
  ⟨by rfl, by rfl, by decide, by decide, by decide⟩

/-- C5 amended: `analyze_data` completes whenever at least one record
has a truthy year (with none, the `year_span` minimum and maximum have
no values and the analysis fails); a record with empty supervisor text
contributes no edges and no counts; unknown alias names pass through
normalization unchanged; every record participates in the
chronologically sorted panel; and a record without a truthy year is
ordered with the sentinel key 9999: everything sorted after it has key
at least 9999, so it sorts after every record with a truthy year below
9999 but can precede a record with year 10000 or larger. -/
theorem analyze_degrades_gracefully_amended :
    (∀ l : List Entry, (∃ e ∈ l, yearTruthy e = true) →
      (analyze_data l).isSome = true) ∧
    (∀ (gc : Graph × List (String × Nat)) (e : Entry),
      e.supervisors = "" → adStep gc e = gc) ∧
    (∀ s : String, s ∉ ghMap.map Prod.fst → normalize_name_gh s = s) ∧
    (∀ l : List Entry, (pySorted beforeEntry l).Perm l) ∧
    (∀ l : List Entry, (pySorted beforeEntry l).Pairwise
      (fun a b => yearTruthy a = false → (9999 : Int) ≤ keyYear b)) := by
  refine ⟨fun l h => analyze_data_isSome h, ?_, ?_, fun l => pySorted_perm _ l, ?_⟩
  · intro gc e he
    unfold adStep
    rw [he]
    simp [parse_supervisors]
  · intro s hs
    exact pyDictGet_not_mem hs
  · intro l
    have hp := pySorted_pairwise beforeEntry
      beforeEntry_trans beforeEntry_asymm l
    refine hp.imp ?_
    intro a b hab hfa
    have hka : keyYear a = 9999 := keyYear_untruthy hfa
    have hor : decide (keyYear b < keyYear a) = false := by
      revert hab
      unfold beforeEntry
      cases decide (keyYear b < keyYear a) <;> simp
    rw [decide_eq_false_iff_not] at hor
    omega

/-- The two-record input of the C5 witness: one record with a year,
one with neither year nor supervisors. -/
def gracefulEx : List Entry := [⟨"Y", "X", some 2005, ""⟩, ⟨"Z", "", none, ""⟩]

/-- Witness for C5 amended at concrete inputs: the completion conjunct
at the two-record input with one truthy year, and the sentinel-ordering
conjunct at the year-10000 input. -/
theorem analyze_degrades_gracefully_amended_witness :
    (analyze_data gracefulEx).isSome = true ∧
    (pySorted beforeEntry yearTenKEx).Pairwise
      (fun a b => yearTruthy a = false → (9999 : Int) ≤ keyYear b) :=
  ⟨analyze_degrades_gracefully_amended.1 gracefulEx (by decide),
   analyze_degrades_gracefully_amended.2.2.2.2 yearTenKEx⟩

/-- C10: every supervisor appearing in `top_descendants` has a
non-empty descendant set whose size is the recorded count; a supervisor
whose descendant set is empty never appears there, although every graph
supervisor is a key of the supervisor-count ranking (counts and graph
share their key sequence). -/
theorem top_descendants_nonempty (l : List Entry) (a : Analysis)
    (h : analyze_data l = some a) :
    (∀ nm c, (nm, c) ∈ a.top_descendants →
      0 < c ∧ ∃ ds, find_all_descendants (adGraph l) nm = some ds ∧ c = ds.length) ∧
    (∀ nm, find_all_descendants (adGraph l) nm = some [] →
      ∀ c, (nm, c) ∉ a.top_descendants) ∧
    (adGraph l).map Prod.fst = (adCounts l).map Prod.fst := by
  obtain ⟨sd, hsd, htop⟩ : ∃ sd, supDescList (adGraph l) (adGraph l) = some sd ∧
      a.top_descendants = (pySorted beforeCount sd).take 10 := by
    unfold analyze_data at h
    cases hch : find_supervisor_chains l with
    | none => rw [hch] at h; exact absurd h (by simp)
    | some chains =>
      rw [hch] at h
      cases hs : supDescList (adGraph l) (adGraph l) with
      | none => rw [hs] at h; exact absurd h (by simp)
      | some sd =>
        rw [hs] at h
        cases hys : adYears l with
        | nil => rw [hys] at h; exact absurd h (by simp)
        | cons y ys =>
          rw [hys] at h
          simp only [Option.some.injEq] at h
          subst h
          exact ⟨sd, rfl, rfl⟩
  have hmain : ∀ nm c, (nm, c) ∈ a.top_descendants →
      0 < c ∧ ∃ ds, find_all_descendants (adGraph l) nm = some ds ∧ c = ds.length := by
    intro nm c hmem
    rw [htop] at hmem
    have hmem2 : (nm, c) ∈ pySorted beforeCount sd := List.mem_of_mem_take hmem
    have hmem3 : (nm, c) ∈ sd := (pySorted_mem beforeCount sd _).mp hmem2
    rcases supDescList_mem hsd hmem3 with ⟨ds, hds, hlen, hpos⟩
    exact ⟨by omega, ds, hds, hlen⟩
  refine ⟨hmain, ?_, adKeys_eq l⟩
  intro nm hempty c hmem
  rcases hmain nm c hmem with ⟨hpos, ds, hds, hlen⟩
  rw [hempty] at hds
  simp only [Option.some.injEq] at hds
  subst hds
  simp at hlen
  omega

/-- The one-record input of the C10 witness: A supervises B. -/
def descEx : List Entry := [⟨"B", "A", some 2000, ""⟩]

/-- The analysis result on that input, used to witness C10. -/
def descExAnalysis : Analysis :=
  (analyze_data descEx).getD ⟨[], [], [], [], [], ⟨0, 0, ""⟩⟩

/-- Witness for C10 at the concrete one-record input. -/
theorem top_descendants_nonempty_witness :
    analyze_data descEx = some descExAnalysis ∧
    ("A", 1) ∈ descExAnalysis.top_descendants ∧
    (0 < 1 ∧ ∃ ds, find_all_descendants (adGraph descEx) "A" = some ds ∧
      1 = ds.length) := by
  have h : analyze_data descEx = some descExAnalysis := by rfl
  have hmem : ("A", 1) ∈ descExAnalysis.top_descendants := by decide
  exact ⟨h, hmem, (top_descendants_nonempty descEx descExAnalysis h).1 "A" 1 hmem⟩
